import Mathlib

/-!
# Verification of the tetanus key/signature codec

A shallow embedding, in Lean, of the base58-with-checksum codec, key
derivation, canonical-signature handling and address formatting of the
`tetanus` Rust crate, together with theorems settling the specification
claims about it.

Conventions of the embedding:
* Rust byte buffers (`Vec<u8>`, slices) become `List Nat` whose elements are
  `< 256`; machine words (`u32`, `u64`, `U256`) become `Nat` with explicit
  `% 2^w` wherever the code relies on wrapping.
* A Rust function that can `panic!`/`assert!`/`unwrap` is embedded returning
  `Option`, with `none` standing for the aborted process; a function that
  returns `Result<T, E>` is embedded as `Except E T`.
* External crates the code calls (`bs58`, `sha2`, `ripemd`, `k256`) are
  embedded by their documented algorithms (base58, SHA-256, RIPEMD-160,
  secp256k1 ECDSA with RFC 6979 nonces), executable on concrete inputs.
-/

set_option maxRecDepth 4000000

namespace Tetanus

/-! ### Big-endian digit strings and natural numbers -/

/-- Value of a big-endian digit list in base `b` (the accumulator loop all
byte/number conversions in the codec boil down to). -/
def ofDigitsBE (b : Nat) (L : List Nat) : Nat :=
  L.foldl (fun acc d => acc * b + d) 0

/-- Fueled little-endian digit expansion of `n` in base `b`; with enough fuel
this is `Nat.digits` (kept fueled so that the kernel can evaluate it). -/
def digitsLEAux (b : Nat) : Nat → Nat → List Nat
  | 0, _ => []
  | fuel+1, n => if n = 0 then [] else n % b :: digitsLEAux b fuel (n / b)

/-- Minimal big-endian digit expansion of `n` in base `b`. -/
def natToBE (b n : Nat) : List Nat := (digitsLEAux b n n).reverse

theorem digitsLEAux_eq_digits (b : Nat) (hb : 2 ≤ b) :
    ∀ fuel n, n ≤ fuel → digitsLEAux b fuel n = Nat.digits b n := by
  intro fuel
  induction fuel with
  | zero =>
    intro n hn
    interval_cases n
    simp [digitsLEAux]
  | succ fuel ih =>
    intro n hn
    by_cases h0 : n = 0
    · subst h0; simp [digitsLEAux]
    · rw [digitsLEAux, if_neg h0,
        Nat.digits_def' (by omega : 1 < b) (Nat.pos_of_ne_zero h0),
        ih (n / b)]
      have : n / b < n := Nat.div_lt_self (Nat.pos_of_ne_zero h0) (by omega)
      omega

theorem natToBE_eq_digits_reverse (b n : Nat) (hb : 2 ≤ b) :
    natToBE b n = (Nat.digits b n).reverse := by
  rw [natToBE, digitsLEAux_eq_digits b hb n n le_rfl]

theorem ofDigitsBE_foldl (b : Nat) (L : List Nat) (acc : Nat) :
    L.foldl (fun a d => a * b + d) acc = acc * b ^ L.length + ofDigitsBE b L := by
  induction L generalizing acc with
  | nil => simp [ofDigitsBE]
  | cons d L ih =>
    simp only [List.foldl_cons, List.length_cons, ofDigitsBE]
    rw [ih (acc * b + d), ih (0 * b + d)]
    ring

theorem ofDigitsBE_cons (b d : Nat) (L : List Nat) :
    ofDigitsBE b (d :: L) = d * b ^ L.length + ofDigitsBE b L := by
  show List.foldl (fun acc x => acc * b + x) (0 * b + d) L = _
  rw [ofDigitsBE_foldl]
  ring_nf

theorem ofDigitsBE_append (b : Nat) (L₁ L₂ : List Nat) :
    ofDigitsBE b (L₁ ++ L₂) = ofDigitsBE b L₁ * b ^ L₂.length + ofDigitsBE b L₂ := by
  rw [ofDigitsBE, List.foldl_append, ofDigitsBE_foldl]
  rfl

theorem ofDigitsBE_eq_ofDigits_reverse (b : Nat) (L : List Nat) :
    ofDigitsBE b L = Nat.ofDigits b L.reverse := by
  induction L with
  | nil => simp [ofDigitsBE, Nat.ofDigits]
  | cons d L ih =>
    rw [ofDigitsBE_cons, List.reverse_cons, Nat.ofDigits_append, ih]
    simp [Nat.ofDigits, List.length_reverse]
    ring

theorem ofDigitsBE_natToBE (b : Nat) (hb : 2 ≤ b) (n : Nat) :
    ofDigitsBE b (natToBE b n) = n := by
  rw [ofDigitsBE_eq_ofDigits_reverse, natToBE_eq_digits_reverse b n hb,
    List.reverse_reverse, Nat.ofDigits_digits]

theorem natToBE_ofDigitsBE (b : Nat) (hb : 2 ≤ b) (L : List Nat)
    (hlt : ∀ x ∈ L, x < b) (hhd : ∀ h : L ≠ [], L.head h ≠ 0) :
    natToBE b (ofDigitsBE b L) = L := by
  rw [ofDigitsBE_eq_ofDigits_reverse,
    natToBE_eq_digits_reverse _ _ hb,
    Nat.digits_ofDigits b (by omega) L.reverse
      (fun l hl => hlt l (List.mem_reverse.mp hl))
      (fun h => by
        rw [List.getLast_reverse]
        exact hhd (fun hL => by simp [hL] at h)),
    List.reverse_reverse]

theorem natToBE_head_ne_zero (b n : Nat) (hb : 2 ≤ b) (hn : n ≠ 0)
    (h : natToBE b n ≠ []) : (natToBE b n).head h ≠ 0 := by
  have hd := natToBE_eq_digits_reverse b n hb
  revert h
  rw [hd]
  intro h
  rw [List.head_reverse]
  exact Nat.getLast_digit_ne_zero b hn

theorem natToBE_ne_nil (b n : Nat) (hb : 2 ≤ b) (hn : n ≠ 0) :
    natToBE b n ≠ [] := by
  rw [natToBE_eq_digits_reverse b n hb]
  simp [Nat.digits_ne_nil_iff_ne_zero, hn]

theorem natToBE_lt (b n : Nat) (hb : 2 ≤ b) : ∀ x ∈ natToBE b n, x < b := by
  rw [natToBE_eq_digits_reverse b n hb]
  intro x hx
  exact Nat.digits_lt_base (by omega) (List.mem_reverse.mp hx)

/-! ### Fixed-width big-endian byte strings (`U256::to_big_endian` etc.) -/

/-- `len`-byte big-endian serialization of `n % 256^len`. -/
def toBytesBE : Nat → Nat → List Nat
  | 0, _ => []
  | len+1, n => toBytesBE len (n / 256) ++ [n % 256]

@[simp] theorem toBytesBE_length : ∀ len n, (toBytesBE len n).length = len := by
  intro len
  induction len with
  | zero => intro n; rfl
  | succ len ih => intro n; simp [toBytesBE, ih]

theorem toBytesBE_lt : ∀ len n, ∀ x ∈ toBytesBE len n, x < 256 := by
  intro len
  induction len with
  | zero => intro n x hx; simp [toBytesBE] at hx
  | succ len ih =>
    intro n x hx
    simp only [toBytesBE, List.mem_append, List.mem_singleton] at hx
    rcases hx with hx | hx
    · exact ih _ x hx
    · subst hx; exact Nat.mod_lt _ (by omega)

theorem ofDigitsBE_toBytesBE : ∀ len n, n < 256 ^ len →
    ofDigitsBE 256 (toBytesBE len n) = n := by
  intro len
  induction len with
  | zero => intro n hn; interval_cases n; rfl
  | succ len ih =>
    intro n hn
    rw [toBytesBE, ofDigitsBE_append]
    have hdiv : n / 256 < 256 ^ len := by
      rw [Nat.div_lt_iff_lt_mul (by omega)]
      calc n < 256 ^ (len + 1) := hn
        _ = 256 ^ len * 256 := by ring
    rw [ih _ hdiv]
    simp [ofDigitsBE]
    omega

theorem toBytesBE_ofDigitsBE : ∀ (len : Nat) (L : List Nat), L.length = len →
    (∀ x ∈ L, x < 256) → toBytesBE len (ofDigitsBE 256 L) = L := by
  intro len
  induction len with
  | zero =>
    intro L hlen _
    rw [List.length_eq_zero.mp hlen]
    rfl
  | succ len ih =>
    intro L hlen hlt
    rcases List.eq_nil_or_concat L with rfl | ⟨L', d, rfl⟩
    · simp at hlen
    · rw [List.concat_eq_append] at hlen hlt ⊢
      have hlen' : L'.length = len := by simpa using hlen
      have hd : d < 256 := hlt d (by simp)
      have hsingle : ofDigitsBE 256 [d] = d := by simp [ofDigitsBE]
      rw [ofDigitsBE_append, hsingle]
      simp only [List.length_singleton, pow_one]
      rw [toBytesBE]
      have h1 : (ofDigitsBE 256 L' * 256 + d) / 256 = ofDigitsBE 256 L' := by
        omega
      have h2 : (ofDigitsBE 256 L' * 256 + d) % 256 = d := by
        omega
      rw [h1, h2, ih L' hlen' (fun x hx => hlt x (by simp [hx]))]

theorem ofDigitsBE_lt (b : Nat) :
    ∀ L : List Nat, (∀ x ∈ L, x < b) → ofDigitsBE b L < b ^ L.length := by
  intro L
  induction L with
  | nil => intro _; simp [ofDigitsBE]
  | cons d L ih =>
    intro hlt
    rw [ofDigitsBE_cons]
    have h1 : d < b := hlt d (by simp)
    have h2 : ofDigitsBE b L < b ^ L.length := ih (fun x hx => hlt x (by simp [hx]))
    have h3 : d * b ^ L.length + ofDigitsBE b L < (d + 1) * b ^ L.length := by
      nlinarith
    calc d * b ^ L.length + ofDigitsBE b L < (d + 1) * b ^ L.length := h3
      _ ≤ b * b ^ L.length := by
          have : d + 1 ≤ b := h1
          exact Nat.mul_le_mul_right _ this
      _ = b ^ (d :: L).length := by rw [List.length_cons]; ring

/-! ### base58 (the `bs58` crate)

`bs58` interprets the input bytes as one big-endian number, writes it in
base 58 over the bitcoin alphabet, and maps each leading zero byte to a
leading `'1'` character; decoding is the exact reverse and fails on any
character outside the alphabet. -/

/-- The bitcoin base58 alphabet used by the `bs58` crate. -/
def b58Alphabet : List Char :=
  "123456789ABCDEFGHJKLMNPQRSTUVWXYZabcdefghijkmnopqrstuvwxyz".data

/-- Character for one base58 digit. -/
def b58DigitChar (d : Nat) : Char := b58Alphabet.getD d '?'

/-- Index of a character in a character list. -/
def charIndex (c : Char) : List Char → Option Nat
  | [] => none
  | a :: l => if a = c then some 0 else (charIndex c l).map (· + 1)

/-- Digit value of one base58 character; `none` when the character is not in
the alphabet (the `bs58` decode error case). -/
def b58CharDigit (c : Char) : Option Nat := charIndex c b58Alphabet

/-- Traverse a list under an `Option`-returning function, failing if any
element fails (the decode loop of `bs58`). -/
def optMap (f : α → Option β) : List α → Option (List β)
  | [] => some []
  | a :: l => do
    let b ← f a
    let t ← optMap f l
    some (b :: t)

/-- `bs58::encode`: leading zero bytes become `'1'`s, the rest is the
big-endian base58 expansion of the input read as a big-endian number. -/
def b58Encode (bytes : List Nat) : List Char :=
  List.replicate (bytes.takeWhile (· == 0)).length '1'
    ++ (natToBE 58 (ofDigitsBE 256 bytes)).map b58DigitChar

/-- `bs58::decode`: fails on a character outside the alphabet, otherwise
leading `'1'`s become zero bytes and the rest is the big-endian byte
expansion of the digits read as a base58 number. -/
def b58Decode (s : List Char) : Option (List Nat) := do
  let ds ← optMap b58CharDigit s
  some (List.replicate (ds.takeWhile (· == 0)).length 0
    ++ natToBE 256 (ofDigitsBE 58 ds))

theorem b58CharDigit_b58DigitChar : ∀ d < 58, b58CharDigit (b58DigitChar d) = some d := by
  decide

theorem optMap_append (f : α → Option β) (l₁ l₂ : List α) (b₁ b₂ : List β)
    (h₁ : optMap f l₁ = some b₁) (h₂ : optMap f l₂ = some b₂) :
    optMap f (l₁ ++ l₂) = some (b₁ ++ b₂) := by
  induction l₁ generalizing b₁ with
  | nil => simp [optMap] at h₁; subst h₁; simpa using h₂
  | cons a l ih =>
    simp only [optMap, Option.bind_eq_bind, Option.bind_eq_some] at h₁
    obtain ⟨b, hb, t, ht, hbt⟩ := h₁
    simp only [Option.some_inj] at hbt
    subst hbt
    simp only [List.cons_append, optMap, Option.bind_eq_bind, Option.bind_eq_some]
    exact ⟨b, hb, t ++ b₂, ih t ht, rfl⟩

theorem optMap_replicate_one (z : Nat) :
    optMap b58CharDigit (List.replicate z '1') = some (List.replicate z 0) := by
  induction z with
  | zero => rfl
  | succ z ih => simp [List.replicate_succ, optMap, ih]; rfl

theorem optMap_b58_digits (l : List Nat) (hl : ∀ d ∈ l, d < 58) :
    optMap b58CharDigit (l.map b58DigitChar) = some l := by
  induction l with
  | nil => rfl
  | cons d l ih =>
    simp only [List.map_cons, optMap, Option.bind_eq_bind, Option.bind_eq_some]
    exact ⟨d, b58CharDigit_b58DigitChar d (hl d (by simp)),
      l, ih (fun x hx => hl x (by simp [hx])), rfl⟩

theorem ofDigitsBE_replicate_zero (b z : Nat) :
    ofDigitsBE b (List.replicate z 0) = 0 := by
  induction z with
  | zero => rfl
  | succ z ih => rw [List.replicate_succ, ofDigitsBE_cons, ih]; simp

theorem ofDigitsBE_replicate_zero_append (b z : Nat) (l : List Nat) :
    ofDigitsBE b (List.replicate z 0 ++ l) = ofDigitsBE b l := by
  rw [ofDigitsBE_append, ofDigitsBE_replicate_zero]
  simp

theorem takeWhile_zero_replicate_append (z : Nat) (l : List Nat)
    (hl : ∀ d, l.head? = some d → d ≠ 0) :
    (List.replicate z 0 ++ l).takeWhile (· == 0) = List.replicate z 0 := by
  induction z with
  | zero =>
    cases l with
    | nil => rfl
    | cons d t =>
      have : d ≠ 0 := hl d rfl
      simp [List.takeWhile_cons, this]
  | succ z ih =>
    rw [List.replicate_succ, List.cons_append, List.takeWhile_cons]
    simp [ih]

theorem dropWhile_head?_not (p : α → Bool) (l : List α) :
    ∀ d, (l.dropWhile p).head? = some d → ¬ p d := by
  induction l with
  | nil => intro d hd; simp [List.dropWhile] at hd
  | cons a t ih =>
    intro d hd
    rw [List.dropWhile_cons] at hd
    by_cases hp : p a
    · rw [if_pos hp] at hd; exact ih d hd
    · rw [if_neg hp] at hd
      simp only [List.head?_cons, Option.some_inj] at hd
      subst hd
      exact hp

/-- The source-of-truth property of the `bs58` embedding: decoding an encoded
byte string returns it unchanged. -/
theorem b58_roundtrip (bytes : List Nat) (h : ∀ x ∈ bytes, x < 256) :
    b58Decode (b58Encode bytes) = some bytes := by
  set z := (bytes.takeWhile (· == 0)).length with hz
  set rest := bytes.dropWhile (· == 0) with hrest
  have hsplit : bytes = List.replicate z 0 ++ rest := by
    have htw : bytes.takeWhile (· == 0) = List.replicate z 0 := by
      apply List.eq_replicate_of_mem
      intro x hx
      have := List.mem_takeWhile_imp hx
      simpa using this
    conv_lhs => rw [← List.takeWhile_append_dropWhile (p := (· == 0)) (l := bytes)]
    rw [htw]
  have hrest_head : ∀ d, rest.head? = some d → d ≠ 0 := by
    intro d hd
    have := dropWhile_head?_not (· == 0) bytes d (by rw [← hrest]; exact hd)
    simp at this
    exact this
  have hrest_lt : ∀ x ∈ rest, x < 256 := by
    intro x hx
    exact h x (by rw [hsplit]; simp [hx])
  have hrest_head' : ∀ hne : rest ≠ [], rest.head hne ≠ 0 := fun hne =>
    hrest_head _ (List.head?_eq_head hne)
  set n := ofDigitsBE 256 bytes with hn
  have hn_rest : n = ofDigitsBE 256 rest := by
    rw [hn, hsplit, ofDigitsBE_replicate_zero_append]
  have hdig_lt : ∀ d ∈ natToBE 58 n, d < 58 := natToBE_lt 58 n (by omega)
  rw [b58Encode, b58Decode, ← hz, ← hn]
  rw [Option.bind_eq_bind, Option.bind_eq_some]
  refine ⟨List.replicate z 0 ++ natToBE 58 n,
    optMap_append _ _ _ _ _ (optMap_replicate_one z) (optMap_b58_digits _ hdig_lt), ?_⟩
  by_cases hn0 : n = 0
  · have hrest_nil : rest = [] := by
      cases hr : rest with
      | nil => rfl
      | cons a t =>
        exfalso
        have ha : a ≠ 0 := hrest_head a (by simp [hr])
        have h0 : ofDigitsBE 256 rest = 0 := by rw [← hn_rest, hn0]
        rw [hr, ofDigitsBE_cons] at h0
        have h0' := Nat.eq_zero_of_add_eq_zero_right h0
        have hpow : 0 < 256 ^ t.length := Nat.pos_pow_of_pos _ (by omega)
        exact ha (by nlinarith)
    have hnat : natToBE 58 n = ([] : List Nat) := by rw [hn0]; rfl
    rw [hnat, List.append_nil]
    have htw0 : (List.replicate z 0).takeWhile (· == 0) = List.replicate z 0 := by
      have h0 := takeWhile_zero_replicate_append z [] (by simp)
      rwa [List.append_nil] at h0
    rw [htw0]
    simp only [List.length_replicate, Option.some_inj]
    rw [ofDigitsBE_replicate_zero, hsplit, hrest_nil]
    rfl
  · have hhd : ∀ d, (natToBE 58 n).head? = some d → d ≠ 0 := by
      intro d hd
      have hne : natToBE 58 n ≠ [] := natToBE_ne_nil 58 n (by omega) hn0
      have h1 := natToBE_head_ne_zero 58 n (by omega) hn0 hne
      rw [List.head?_eq_head hne] at hd
      simp only [Option.some_inj] at hd
      subst hd
      exact h1
    rw [takeWhile_zero_replicate_append z _ hhd]
    simp only [List.length_replicate, Option.some_inj]
    rw [ofDigitsBE_replicate_zero_append, ofDigitsBE_natToBE 58 (by omega) n,
      hn_rest, natToBE_ofDigitsBE 256 (by omega) rest hrest_lt hrest_head']
    exact hsplit.symm

/-! ### SHA-256 (the `sha2` crate) -/

/-- Truncation to a 32-bit word. -/
def w32 (x : Nat) : Nat := x % 4294967296

/-- 32-bit right rotation (input assumed `< 2^32`). -/
def rotr32 (n x : Nat) : Nat :=
  w32 (Nat.lor (Nat.shiftRight x n) (Nat.shiftLeft x (32 - n)))

/-- SHA-256 round constants. -/
def sha256K : List Nat := [
  1116352408, 1899447441, 3049323471, 3921009573, 961987163, 1508970993,
  2453635748, 2870763221, 3624381080, 310598401, 607225278, 1426881987,
  1925078388, 2162078206, 2614888103, 3248222580, 3835390401, 4022224774,
  264347078, 604807628, 770255983, 1249150122, 1555081692, 1996064986,
  2554220882, 2821834349, 2952996808, 3210313671, 3336571891, 3584528711,
  113926993, 338241895, 666307205, 773529912, 1294757372, 1396182291,
  1695183700, 1986661051, 2177026350, 2456956037, 2730485921, 2820302411,
  3259730800, 3345764771, 3516065817, 3600352804, 4094571909, 275423344,
  430227734, 506948616, 659060556, 883997877, 958139571, 1322822218,
  1537002063, 1747873779, 1955562222, 2024104815, 2227730452, 2361852424,
  2428436474, 2756734187, 3204031479, 3329325298]

/-- SHA-256 initial state. -/
def sha256H0 : List Nat :=
  [1779033703, 3144134277, 1013904242, 2773480762,
   1359893119, 2600822924, 528734635, 1541459225]

def sha256BigSigma0 (x : Nat) : Nat := Nat.xor (rotr32 2 x) (Nat.xor (rotr32 13 x) (rotr32 22 x))
def sha256BigSigma1 (x : Nat) : Nat := Nat.xor (rotr32 6 x) (Nat.xor (rotr32 11 x) (rotr32 25 x))
def sha256SmallSigma0 (x : Nat) : Nat :=
  Nat.xor (rotr32 7 x) (Nat.xor (rotr32 18 x) (Nat.shiftRight x 3))
def sha256SmallSigma1 (x : Nat) : Nat :=
  Nat.xor (rotr32 17 x) (Nat.xor (rotr32 19 x) (Nat.shiftRight x 10))
def sha256Ch (x y z : Nat) : Nat :=
  Nat.xor (Nat.land x y) (Nat.land (Nat.xor x 0xffffffff) z)
def sha256Maj (x y z : Nat) : Nat :=
  Nat.xor (Nat.land x y) (Nat.xor (Nat.land x z) (Nat.land y z))

/-- Pack bytes into 32-bit big-endian words. -/
def bytesToWordsBE : List Nat → List Nat
  | b0 :: b1 :: b2 :: b3 :: rest =>
    (((b0 * 256 + b1) * 256 + b2) * 256 + b3) :: bytesToWordsBE rest
  | _ => []

/-- Extend the 16 message words to 64 (driven by remaining count). -/
def sha256Extend : Nat → List Nat → List Nat
  | 0, ws => ws
  | k+1, ws =>
    let t := ws.length
    sha256Extend k (ws ++ [w32 (sha256SmallSigma1 (ws.getD (t-2) 0) + ws.getD (t-7) 0 +
      sha256SmallSigma0 (ws.getD (t-15) 0) + ws.getD (t-16) 0)])

/-- One SHA-256 round on the 8-word working state. -/
def sha256Round (st : List Nat) (kw : Nat × Nat) : List Nat :=
  match st with
  | [a, b, c, d, e, f, g, h] =>
    let t1 := w32 (h + sha256BigSigma1 e + sha256Ch e f g + kw.1 + kw.2)
    let t2 := w32 (sha256BigSigma0 a + sha256Maj a b c)
    [w32 (t1 + t2), a, b, c, w32 (d + t1), e, f, g]
  | st => st

/-- Compress one 64-byte block into the state. -/
def sha256Compress (h : List Nat) (block : List Nat) : List Nat :=
  let ws := sha256Extend 48 (bytesToWordsBE block)
  let st := (sha256K.zip ws).foldl sha256Round h
  h.zipWith (fun x y => w32 (x + y)) st

/-- Merkle–Damgård padding for SHA-256. -/
def sha256Pad (msg : List Nat) : List Nat :=
  msg ++ [0x80] ++ List.replicate ((55 + 64 - msg.length % 64) % 64) 0
    ++ toBytesBE 8 (msg.length * 8)

/-- Split a list into chunks of `n` (fueled by the first argument). -/
def chunksOf (n : Nat) : Nat → List α → List (List α)
  | 0, _ => []
  | _+1, [] => []
  | fuel+1, l => l.take n :: chunksOf n fuel (l.drop n)

/-- SHA-256 of a byte string. -/
def sha256 (msg : List Nat) : List Nat :=
  let padded := sha256Pad msg
  let final := (chunksOf 64 padded.length padded).foldl sha256Compress sha256H0
  (final.map (toBytesBE 4)).flatten

theorem sha256Round_length (st : List Nat) (kw : Nat × Nat) :
    (sha256Round st kw).length = st.length := by
  rcases st with _ | ⟨a, _ | ⟨b, _ | ⟨c, _ | ⟨d, _ | ⟨e, _ | ⟨f, _ | ⟨g, _ | ⟨h, _ | ⟨i, t⟩⟩⟩⟩⟩⟩⟩⟩⟩ <;> rfl

theorem foldl_sha256Round_length (l : List (Nat × Nat)) (st : List Nat) :
    (l.foldl sha256Round st).length = st.length := by
  induction l generalizing st with
  | nil => rfl
  | cons kw l ih => rw [List.foldl_cons, ih, sha256Round_length]

theorem sha256Compress_length (h block : List Nat) :
    (sha256Compress h block).length = h.length := by
  rw [sha256Compress]
  simp [List.length_zipWith, foldl_sha256Round_length]

theorem foldl_sha256Compress_length (blocks : List (List Nat)) (h : List Nat) :
    (blocks.foldl sha256Compress h).length = h.length := by
  induction blocks generalizing h with
  | nil => rfl
  | cons b blocks ih => rw [List.foldl_cons, ih, sha256Compress_length]

theorem sha256_length (msg : List Nat) : (sha256 msg).length = 32 := by
  rw [sha256]
  rw [List.length_flatten]
  have h8 : ((chunksOf 64 (sha256Pad msg).length (sha256Pad msg)).foldl
      sha256Compress sha256H0).length = 8 := foldl_sha256Compress_length _ _
  generalize hfin : (chunksOf 64 (sha256Pad msg).length (sha256Pad msg)).foldl
      sha256Compress sha256H0 = final at h8
  rw [List.map_map]
  have : (final.map (List.length ∘ toBytesBE 4)) = final.map (fun _ => 4) := by
    apply List.map_congr_left
    intro a _
    simp [Function.comp, toBytesBE_length]
  rw [this, List.map_const', List.sum_replicate, h8]
  rfl

theorem sha256_lt (msg : List Nat) : ∀ x ∈ sha256 msg, x < 256 := by
  intro x hx
  rw [sha256] at hx
  simp only [List.mem_flatten, List.mem_map] at hx
  obtain ⟨l, ⟨w, _, rfl⟩, hxl⟩ := hx
  exact toBytesBE_lt 4 w x hxl

/-! ### RIPEMD-160 (the `ripemd` crate) -/

/-- Little-endian byte serialization of `n % 256^len`. -/
def toBytesLE : Nat → Nat → List Nat
  | 0, _ => []
  | len+1, n => n % 256 :: toBytesLE len (n / 256)

theorem toBytesLE_lt : ∀ len n, ∀ x ∈ toBytesLE len n, x < 256 := by
  intro len
  induction len with
  | zero => intro n x hx; simp [toBytesLE] at hx
  | succ len ih =>
    intro n x hx
    simp only [toBytesLE, List.mem_cons] at hx
    rcases hx with hx | hx
    · subst hx; exact Nat.mod_lt _ (by omega)
    · exact ih _ x hx

@[simp] theorem toBytesLE_length : ∀ len n, (toBytesLE len n).length = len := by
  intro len
  induction len with
  | zero => intro n; rfl
  | succ len ih => intro n; simp [toBytesLE, ih]

/-- Pack bytes into 32-bit little-endian words. -/
def bytesToWordsLE : List Nat → List Nat
  | b0 :: b1 :: b2 :: b3 :: rest =>
    (b0 + 256 * (b1 + 256 * (b2 + 256 * b3))) :: bytesToWordsLE rest
  | _ => []

/-- 32-bit left rotation (input assumed `< 2^32`). -/
def rol32 (n x : Nat) : Nat :=
  w32 (Nat.lor (Nat.shiftLeft x n) (Nat.shiftRight x (32 - n)))

def not32 (x : Nat) : Nat := Nat.xor x 0xffffffff

/-- RIPEMD-160 selection function for round `j`. -/
def rmdF (j x y z : Nat) : Nat :=
  if j < 16 then Nat.xor x (Nat.xor y z)
  else if j < 32 then Nat.lor (Nat.land x y) (Nat.land (not32 x) z)
  else if j < 48 then Nat.xor (Nat.lor x (not32 y)) z
  else if j < 64 then Nat.lor (Nat.land x z) (Nat.land y (not32 z))
  else Nat.xor x (Nat.lor y (not32 z))

/-- RIPEMD-160 round constants, left line. -/
def rmdKL (j : Nat) : Nat :=
  if j < 16 then 0 else if j < 32 then 0x5a827999 else if j < 48 then 0x6ed9eba1
  else if j < 64 then 0x8f1bbcdc else 0xa953fd4e

/-- RIPEMD-160 round constants, right line. -/
def rmdKR (j : Nat) : Nat :=
  if j < 16 then 0x50a28be6 else if j < 32 then 0x5c4dd124 else if j < 48 then 0x6d703ef3
  else if j < 64 then 0x7a6d76e9 else 0

/-- Message word order, left line. -/
def rmdRL : List Nat := [
  0,1,2,3,4,5,6,7,8,9,10,11,12,13,14,15,
  7,4,13,1,10,6,15,3,12,0,9,5,2,14,11,8,
  3,10,14,4,9,15,8,1,2,7,0,6,13,11,5,12,
  1,9,11,10,0,8,12,4,13,3,7,15,14,5,6,2,
  4,0,5,9,7,12,2,10,14,1,3,8,11,6,15,13]

/-- Message word order, right line. -/
def rmdRR : List Nat := [
  5,14,7,0,9,2,11,4,13,6,15,8,1,10,3,12,
  6,11,3,7,0,13,5,10,14,15,8,12,4,9,1,2,
  15,5,1,3,7,14,6,9,11,8,12,2,10,0,4,13,
  8,6,4,1,3,11,15,0,5,12,2,13,9,7,10,14,
  12,15,10,4,1,5,8,7,6,2,13,14,0,3,9,11]

/-- Rotation amounts, left line. -/
def rmdSL : List Nat := [
  11,14,15,12,5,8,7,9,11,13,14,15,6,7,9,8,
  7,6,8,13,11,9,7,15,7,12,15,9,11,7,13,12,
  11,13,6,7,14,9,13,15,14,8,13,6,5,12,7,5,
  11,12,14,15,14,15,9,8,9,14,5,6,8,6,5,12,
  9,15,5,11,6,8,13,12,5,12,13,14,11,8,5,6]

/-- Rotation amounts, right line. -/
def rmdSR : List Nat := [
  8,9,9,11,13,15,15,5,7,7,8,11,14,14,12,6,
  9,13,15,7,12,8,9,11,7,7,12,7,6,15,13,11,
  9,7,15,11,8,6,6,14,12,13,5,14,13,13,7,5,
  15,5,8,11,14,14,6,14,6,9,12,9,12,5,15,8,
  8,5,12,9,12,5,14,6,8,13,6,5,15,13,11,11]

/-- Initial RIPEMD-160 state. -/
def rmdH0 : List Nat := [0x67452301, 0xefcdab89, 0x98badcfe, 0x10325476, 0xc3d2e1f0]

/-- One RIPEMD-160 round on a five-register line. -/
def rmdRound (X : List Nat) (isRight : Bool) (regs : List Nat) (j : Nat) : List Nat :=
  match regs with
  | [a, b, c, d, e] =>
    let f := if isRight then rmdF (79 - j) b c d else rmdF j b c d
    let k := if isRight then rmdKR j else rmdKL j
    let r := if isRight then rmdRR.getD j 0 else rmdRL.getD j 0
    let s := if isRight then rmdSR.getD j 0 else rmdSL.getD j 0
    let t := w32 (rol32 s (w32 (a + f + X.getD r 0 + k)) + e)
    [e, t, b, rol32 10 c, d]
  | regs => regs

/-- Compress one 64-byte block into the RIPEMD-160 state. -/
def rmdCompress (h : List Nat) (block : List Nat) : List Nat :=
  let X := bytesToWordsLE block
  let L := (List.range 80).foldl (rmdRound X false) h
  let R := (List.range 80).foldl (rmdRound X true) h
  [w32 (h.getD 1 0 + L.getD 2 0 + R.getD 3 0),
   w32 (h.getD 2 0 + L.getD 3 0 + R.getD 4 0),
   w32 (h.getD 3 0 + L.getD 4 0 + R.getD 0 0),
   w32 (h.getD 4 0 + L.getD 0 0 + R.getD 1 0),
   w32 (h.getD 0 0 + L.getD 1 0 + R.getD 2 0)]

/-- RIPEMD-160 padding (little-endian bit length). -/
def rmdPad (msg : List Nat) : List Nat :=
  msg ++ [0x80] ++ List.replicate ((55 + 64 - msg.length % 64) % 64) 0
    ++ toBytesLE 8 (msg.length * 8)

/-- RIPEMD-160 of a byte string. -/
def ripemd160 (msg : List Nat) : List Nat :=
  let padded := rmdPad msg
  let final := (chunksOf 64 padded.length padded).foldl rmdCompress rmdH0
  (final.map (toBytesLE 4)).flatten

theorem rmdCompress_length (h block : List Nat) :
    (rmdCompress h block).length = 5 := rfl

theorem foldl_rmdCompress_length (blocks : List (List Nat)) :
    ∀ h : List Nat, h.length = 5 → (blocks.foldl rmdCompress h).length = 5 := by
  induction blocks with
  | nil => intro h hh; exact hh
  | cons b blocks ih => intro h hh; rw [List.foldl_cons]; exact ih _ (rmdCompress_length h b)

theorem ripemd160_length (msg : List Nat) : (ripemd160 msg).length = 20 := by
  rw [ripemd160, List.length_flatten]
  have h5 : ((chunksOf 64 (rmdPad msg).length (rmdPad msg)).foldl rmdCompress rmdH0).length = 5 :=
    foldl_rmdCompress_length _ _ rfl
  generalize hfin : (chunksOf 64 (rmdPad msg).length (rmdPad msg)).foldl rmdCompress rmdH0 = final at h5
  rw [List.map_map]
  have hmap : (final.map (List.length ∘ toBytesLE 4)) = final.map (fun _ => 4) := by
    apply List.map_congr_left
    intro a _
    simp [Function.comp, toBytesLE_length]
  rw [hmap, List.map_const', List.sum_replicate, h5]
  rfl

theorem ripemd160_lt (msg : List Nat) : ∀ x ∈ ripemd160 msg, x < 256 := by
  intro x hx
  rw [ripemd160] at hx
  simp only [List.mem_flatten, List.mem_map] at hx
  obtain ⟨l, ⟨w, _, rfl⟩, hxl⟩ := hx
  exact toBytesLE_lt 4 w x hxl

/-! ### HMAC-SHA256 and RFC 6979 deterministic nonces (the `k256` crate) -/

/-- HMAC-SHA256. -/
def hmacSha256 (key msg : List Nat) : List Nat :=
  let k0 := if key.length > 64 then sha256 key else key
  let kpad := k0 ++ List.replicate (64 - k0.length) 0
  sha256 ((kpad.map (fun b => Nat.xor b 0x5c)) ++ sha256 ((kpad.map (fun b => Nat.xor b 0x36)) ++ msg))

/-- secp256k1 field modulus. -/
def secpP : Nat := 0xfffffffffffffffffffffffffffffffffffffffffffffffffffffffefffffc2f

/-- secp256k1 group order. -/
def secpN : Nat := 0xfffffffffffffffffffffffffffffffebaaedce6af48a03bbfd25e8cd0364141

/-- secp256k1 base point, x coordinate. -/
def secpGx : Nat := 0x79be667ef9dcbbac55a06295ce870b07029bfcdb2dce28d959f2815b16f81798

/-- secp256k1 base point, y coordinate. -/
def secpGy : Nat := 0x483ada7726a3c4655da4fbfc0e1108a8fd17b448a68554199c47d08ffb10d4b8

/-- RFC 6979 candidate generation loop (fueled). -/
def rfc6979Loop : Nat → List Nat → List Nat → Option Nat
  | 0, _, _ => none
  | fuel+1, bigK, v =>
    let v' := hmacSha256 bigK v
    let k := ofDigitsBE 256 v'
    if 0 < k ∧ k < secpN then some k
    else
      let bigK' := hmacSha256 bigK (v' ++ [0x00])
      rfc6979Loop fuel bigK' (hmacSha256 bigK' v')

/-- RFC 6979 deterministic nonce for secp256k1 with SHA-256 and no extra
entropy, exactly as the `k256` signer uses it: the private scalar's 32-byte
encoding concatenated with the digest reduced mod the group order seeds an
HMAC-DRBG. -/
def rfc6979Nonce (x h1 : List Nat) : Option Nat :=
  let data := x ++ toBytesBE 32 (ofDigitsBE 256 h1 % secpN)
  let v0 := List.replicate 32 0x01
  let k0 := List.replicate 32 0x00
  let k1 := hmacSha256 k0 (v0 ++ [0x00] ++ data)
  let v1 := hmacSha256 k1 v0
  let k2 := hmacSha256 k1 (v1 ++ [0x01] ++ data)
  let v2 := hmacSha256 k2 v1
  rfc6979Loop 100 k2 v2

/-! ### secp256k1 arithmetic (the `k256` crate) -/

/-- Modular exponentiation, fueled on the binary length of the exponent. -/
def powModAux (m : Nat) : Nat → Nat → Nat → Nat
  | 0, _, _ => 1
  | fuel+1, b, e =>
    if e = 0 then 1
    else
      let r := powModAux m fuel (b * b % m) (e / 2)
      if e % 2 = 1 then r * b % m else r

def powMod (m b e : Nat) : Nat := powModAux m 300 (b % m) e

/-- Field inverse by Fermat's little theorem. -/
def pinv (a : Nat) : Nat := powMod secpP a (secpP - 2)

/-- Scalar inverse mod the group order. -/
def ninv (a : Nat) : Nat := powMod secpN a (secpN - 2)

/-- Modular difference for field elements (`a`, `b` < `secpP`). -/
def psub (a b : Nat) : Nat := (a + secpP - b) % secpP

/-- Jacobian-coordinate point doubling on secp256k1 (`z = 0` is infinity). -/
def jacDouble : Nat × Nat × Nat → Nat × Nat × Nat
  | (x, y, z) =>
    if z = 0 ∨ y = 0 then (0, 1, 0)
    else
      let ysq := y * y % secpP
      let s := 4 * x * ysq % secpP
      let m := 3 * (x * x % secpP) % secpP
      let x' := psub (m * m % secpP) (2 * s % secpP)
      let y' := psub (m * psub s x' % secpP) (8 * (ysq * ysq % secpP) % secpP)
      let z' := 2 * y * z % secpP
      (x', y', z')

/-- Jacobian-coordinate point addition on secp256k1. -/
def jacAdd (p1 p2 : Nat × Nat × Nat) : Nat × Nat × Nat :=
  match p1, p2 with
  | (x1, y1, z1), (x2, y2, z2) =>
    if z1 = 0 then p2
    else if z2 = 0 then p1
    else
      let z1sq := z1 * z1 % secpP
      let z2sq := z2 * z2 % secpP
      let u1 := x1 * z2sq % secpP
      let u2 := x2 * z1sq % secpP
      let s1 := y1 * (z2sq * z2 % secpP) % secpP
      let s2 := y2 * (z1sq * z1 % secpP) % secpP
      if u1 = u2 then
        if s1 ≠ s2 then (0, 1, 0) else jacDouble p1
      else
        let h := psub u2 u1
        let r := psub s2 s1
        let hsq := h * h % secpP
        let hcu := hsq * h % secpP
        let x3 := psub (psub (r * r % secpP) hcu) (2 * (u1 * hsq % secpP) % secpP)
        let y3 := psub (r * psub (u1 * hsq % secpP) x3 % secpP) (s1 * hcu % secpP)
        let z3 := h * (z1 * z2 % secpP) % secpP
        (x3, y3, z3)

/-- Double-and-add scalar multiplication, fueled over 256 bits. -/
def jacScalarMulAux : Nat → Nat → Nat × Nat × Nat → Nat × Nat × Nat → Nat × Nat × Nat
  | 0, _, _, acc => acc
  | fuel+1, k, base, acc =>
    let acc' := if k % 2 = 1 then jacAdd acc base else acc
    jacScalarMulAux fuel (k / 2) (jacDouble base) acc'

def jacScalarMul (k : Nat) (pt : Nat × Nat × Nat) : Nat × Nat × Nat :=
  jacScalarMulAux 256 k pt (0, 1, 0)

/-- Jacobian to affine coordinates; `none` is the point at infinity. -/
def jacToAffine : Nat × Nat × Nat → Option (Nat × Nat)
  | (x, y, z) =>
    if z = 0 then none
    else
      let zi := pinv z
      let zi2 := zi * zi % secpP
      some (x * zi2 % secpP, y * (zi2 * zi % secpP) % secpP)

/-- SEC1 compressed serialization of an affine point
(`VerifyingKey::to_bytes` in `k256`). -/
def compressPoint (xy : Nat × Nat) : List Nat :=
  (if xy.2 % 2 = 1 then 3 else 2) :: toBytesBE 32 xy.1

/-- Final step of ECDSA signing: reject `s = 0`, then low-S-normalize,
flipping the recovery parity (the parity of `R.y`, given here by `ry`)
alongside the negation of `s`. -/
def lowSFinish (r s ry : Nat) : Option (Nat × Nat × Nat) :=
  if s = 0 then none
  else if s > secpN / 2 then some (r, secpN - s, if ry % 2 == 1 then 0 else 1)
  else some (r, s, if ry % 2 == 1 then 1 else 0)

/-- ECDSA signing with an explicit nonce `k` over the reduced digest `z`:
`R = k·G`, `r = R.x mod n` (zero rejected), `s = k⁻¹(z + r·d) mod n`,
then `lowSFinish`. -/
def ecdsaSignWithNonce (d z k : Nat) : Option (Nat × Nat × Nat) :=
  (jacToAffine (jacScalarMul k (secpGx, secpGy, 1))).bind (fun pt =>
    if pt.1 % secpN = 0 then none
    else lowSFinish (pt.1 % secpN) (ninv k * ((z + pt.1 % secpN * d) % secpN) % secpN) pt.2)

/-- ECDSA signing as the `k256` recoverable signer performs it: RFC 6979
nonce, low-S normalization with the recovery parity flipped alongside, and
the recovery parity taken from the parity of `R.y`. Returns
`(r, s, recoveryParity)`. -/
def ecdsaSignCanonical (d : Nat) (h1 : List Nat) : Option (Nat × Nat × Nat) :=
  (rfc6979Nonce (toBytesBE 32 d) h1).bind (fun k =>
    ecdsaSignWithNonce d (ofDigitsBE 256 h1 % secpN) k)

/-- ECDSA public-key recovery as `k256`'s
`recover_verify_key_from_digest_bytes` performs it: rebuild `R` from `r` and
the recovery parity, then compute `r⁻¹·(s·R − z·G)`. `none` is the recovery
failure case (no curve point, or the result is the point at infinity). -/
def ecdsaRecover (r s recid : Nat) (h1 : List Nat) : Option (Nat × Nat) :=
  let z := ofDigitsBE 256 h1 % secpN
  let ysq := (powMod secpP r 3 + 7) % secpP
  let y0 := powMod secpP ysq ((secpP + 1) / 4)
  if y0 * y0 % secpP ≠ ysq then none
  else
    let y := if (y0 % 2 == 1) == (recid == 1) then y0 else (secpP - y0) % secpP
    let rinv := ninv r
    let u1 := (secpN - z) % secpN * rinv % secpN
    let u2 := s * rinv % secpN
    jacToAffine (jacAdd (jacScalarMul u1 (secpGx, secpGy, 1)) (jacScalarMul u2 (r, y, 1)))

/-! ### Embedding of `src/utils.rs` -/

inductive EncodeType
  | K1
  | Sha256x2
  | PubKey
deriving DecidableEq

/-- UTF-8 encoding of one code point. -/
def utf8Bytes (c : Nat) : List Nat :=
  if c < 0x80 then [c]
  else if c < 0x800 then [0xc0 + c / 64, 0x80 + c % 64]
  else if c < 0x10000 then [0xe0 + c / 4096, 0x80 + c / 64 % 64, 0x80 + c % 64]
  else [0xf0 + c / 262144, 0x80 + c / 4096 % 64, 0x80 + c / 64 % 64, 0x80 + c % 64]

/-- The bytes of a Rust `&str` (UTF-8). -/
def strBytes (s : String) : List Nat := (s.data.map (fun c => utf8Bytes c.toNat)).flatten

/-- `utils::hash_message` (SHA-256 of the message bytes). -/
def hash_message (m : List Nat) : List Nat := sha256 m

/-- `utils::decode_from_string`.

The Rust function base58-decodes with `.unwrap()`, slices off the trailing
four checksum bytes, and enforces the per-variant shape with `assert!`;
every failure aborts the process, embedded here as `none`.  The sliced-off
checksum is only length-checked — it is never recomputed or compared. -/
def decode_from_string (input : String) (encoding : Option EncodeType) : Option (List Nat) :=
  let encode_type := encoding.getD EncodeType.K1
  match b58Decode input.data with
  | none => none
  | some decoded =>
    if decoded.length < 4 then none
    else
      let buf := decoded.take (decoded.length - 4)
      let checksum := decoded.drop (decoded.length - 4)
      match encode_type with
      | EncodeType.PubKey =>
        if buf.length = 32 ∧ checksum.length = 4 then some buf else none
      | EncodeType.Sha256x2 =>
        if buf.length < 1 then none
        else
          let network_id := buf.take 1
          let key_buffer := buf.drop 1
          if checksum.length = 4 ∧ key_buffer.length = 32 ∧ network_id = [0x80] then
            some key_buffer
          else none
      | EncodeType.K1 =>
        if buf.length = 65 ∧ checksum.length = 4 then some buf else none

/-- `utils::encode_to_string`: appends the four-byte checksum selected by the
variant (RIPEMD-160 over payload ‖ `"K1"` for `K1`, double SHA-256 over
`0x80` ‖ payload for `Sha256x2`, RIPEMD-160 over the payload for `PubKey`)
and base58-encodes. -/
def encode_to_string (buffer : List Nat) (encoding : Option EncodeType) : String :=
  let encode_type := encoding.getD EncodeType.K1
  match encode_type with
  | EncodeType.PubKey =>
    let hash := ripemd160 buffer
    String.mk (b58Encode (buffer ++ hash.take 4))
  | EncodeType.Sha256x2 =>
    let key_vec := 0x80 :: buffer
    let checksum := sha256 (sha256 key_vec)
    String.mk (b58Encode (key_vec ++ checksum.take 4))
  | EncodeType.K1 =>
    let check := buffer ++ [0x4b, 0x31]
    let result := ripemd160 check
    String.mk (b58Encode (buffer ++ result.take 4))

instance {ε α : Type} [DecidableEq ε] [DecidableEq α] : DecidableEq (Except ε α) := fun x y =>
  match x, y with
  | Except.ok a, Except.ok b =>
    if h : a = b then isTrue (by rw [h]) else isFalse (fun he => by cases he; exact h rfl)
  | Except.error e, Except.error f =>
    if h : e = f then isTrue (by rw [h]) else isFalse (fun he => by cases he; exact h rfl)
  | Except.ok _, Except.error _ => isFalse (fun h => by cases h)
  | Except.error _, Except.ok _ => isFalse (fun h => by cases h)

/-! ### Embedding of `src/types/keys.rs` -/

/-- `types::keys::PublicAddress`: a 33-byte compressed SEC1 public key. -/
structure PublicAddress where
  bytes : List Nat
deriving DecidableEq

/-! ### Embedding of `src/types/signature.rs` -/

/-- `types::signature::Signature`; `r` and `s` are `U256` values
(`< 2^256`), `v` is a `u64` recovery marker (`< 2^64`). -/
structure Signature where
  r : Nat
  s : Nat
  v : Nat
deriving DecidableEq

/-- `types::signature::SignatureError`. -/
inductive SignatureError
  | InvalidLength (got : Nat)
  | VerificationError (expected actual : PublicAddress)
  | K256Error
  | RecoveryError
deriving DecidableEq

/-- `types::signature::RecoveryMessage`. -/
inductive RecoveryMessage
  | Data (bytes : List Nat)
  | Hash (h : List Nat)
deriving DecidableEq

/-- `normalize_recovery_id` (private helper in `types/signature.rs`),
written as the same ordered match: `0 → 0`, `1 → 1`, `31 → 0`, `32 → 1`,
`v ≥ 35 → (v − 1) % 2`, everything else → the sentinel `4`. -/
def normalize_recovery_id (v : Nat) : Nat :=
  if v = 0 then 0
  else if v = 1 then 1
  else if v = 31 then 0
  else if v = 32 then 1
  else if v ≥ 35 then (v - 1) % 2
  else 4

namespace Signature

/-- `Signature::recovery_id`: `recoverable::Id::new` accepts only 0 or 1 and
its error surfaces as the wrapped `K256Error`. -/
def recovery_id (sig : Signature) : Except SignatureError Nat :=
  let standard_v := normalize_recovery_id sig.v
  if standard_v ≤ 1 then Except.ok standard_v else Except.error SignatureError.K256Error

/-- `Signature::as_signature`: recovery id first, then
`k256::ecdsa::Signature::from_scalars`, which rejects `r`/`s` outside
`[1, n − 1]` (again surfacing as `K256Error`). -/
def as_signature (sig : Signature) : Except SignatureError (Nat × Nat × Nat) := do
  let recid ← recovery_id sig
  let r := sig.r % 2 ^ 256
  let s := sig.s % 2 ^ 256
  if r = 0 ∨ r ≥ secpN ∨ s = 0 ∨ s ≥ secpN then Except.error SignatureError.K256Error
  else Except.ok (r, s, recid)

/-- Digest selection of `Signature::recover`. -/
def messageHash : RecoveryMessage → List Nat
  | RecoveryMessage.Data m => hash_message m
  | RecoveryMessage.Hash h => h

/-- `Signature::recover`. -/
def recover (sig : Signature) (message : RecoveryMessage) :
    Except SignatureError PublicAddress := do
  let (r, s, recid) ← as_signature sig
  match ecdsaRecover r s recid (messageHash message) with
  | none => Except.error SignatureError.K256Error
  | some pt => Except.ok ⟨compressPoint pt⟩

/-- `Signature::verify`. -/
def verify (sig : Signature) (message : RecoveryMessage) (pub : PublicAddress) :
    Except SignatureError Unit := do
  let recovered ← recover sig message
  if recovered ≠ pub then Except.error (SignatureError.VerificationError pub recovered)
  else Except.ok ()

/-- `From<&Signature> for [u8; 65]` / `Signature::to_vec`:
`r` and `s` as 32-byte big-endian words, then `v as u8`. -/
def to_vec (sig : Signature) : List Nat :=
  toBytesBE 32 sig.r ++ toBytesBE 32 sig.s ++ [sig.v % 256]

end Signature

/-- `TryFrom<&[u8]> for Signature`: 65 bytes, `r ‖ s ‖ v`. -/
def signatureTryFrom (bytes : List Nat) : Except SignatureError Signature :=
  if bytes.length ≠ 65 then Except.error (SignatureError.InvalidLength bytes.length)
  else Except.ok
    { r := ofDigitsBE 256 (bytes.take 32)
      s := ofDigitsBE 256 ((bytes.drop 32).take 32)
      v := bytes.getD 64 0 }

/-- `Vec::rotate_left(1)`. -/
def rotL1 (l : List α) : List α := l.drop 1 ++ l.take 1

/-- `Vec::rotate_right(1)`. -/
def rotR1 (l : List α) : List α := l.drop (l.length - 1) ++ l.take (l.length - 1)

/-- `str::strip_prefix(p).unwrap_or(s)`. -/
def stripPfx (s pfx : String) : String :=
  if pfx.data.isPrefixOf s.data then String.mk (s.data.drop pfx.data.length) else s

namespace Signature

/-- `Signature::from_legacy`: strip the textual tag (default `"SIG_K1_"`),
K1-decode, rotate the leading recovery byte to the back, parse.  The outer
`Option` is the abort of `decode_from_string`; the inner `Except` is the
Rust `Result`. -/
def from_legacy (sig : String) (pfx : Option String) :
    Option (Except SignatureError Signature) :=
  let sig_string := stripPfx sig (pfx.getD "SIG_K1_")
  match decode_from_string sig_string none with
  | none => none
  | some decoded_sig => some (signatureTryFrom (rotL1 decoded_sig))

/-- `Signature::to_legacy`: serialize 65 bytes, rotate the recovery byte to
the front, K1-encode, and prepend the (un-checksummed) textual tag. -/
def to_legacy (sig : Signature) (pfx : Option String) : String :=
  let p := pfx.getD ""
  let current_buff := rotR1 sig.to_vec
  p ++ encode_to_string current_buff none

end Signature

/-! ### Embedding of `src/keys/public.rs` -/

/-- `types::chain::Chain`.  Modelled from the spec: `src/types/chain.rs` is
not among the sources; the spec describes a small closed chain enumeration
whose variants (`Hive`, `Steem`, `Eos`) are exactly the ones matched in
`PublicKey::to_string`. -/
inductive Chain
  | Hive
  | Steem
  | Eos
deriving DecidableEq

/-- `keys::public::PublicKey`. -/
structure PublicKey where
  key : List Nat
deriving DecidableEq

/-- `PublicKey::to_string`: chain prefix from the closed match table, then
the `PubKey`-variant base58check encoding; the `assert!(len > 0)` abort is
the `none` case. -/
def PublicKey.to_string (k : PublicKey) (chain : Option Chain) : Option String :=
  let pfx := match chain.getD Chain.Hive with
    | Chain.Hive => "STM"
    | Chain.Steem => "STM"
    | Chain.Eos => "EOS"
  if k.key.length > 0 then some (pfx ++ encode_to_string k.key (some EncodeType.PubKey))
  else none

/-! ### Embedding of `src/keys/private.rs` -/

/-- `keys::private::PrivateKey`. -/
structure PrivateKey where
  key : List Nat
deriving DecidableEq

namespace PrivateKey

/-- `PrivateKey::new` (asserts a 32-byte buffer). -/
def new (key : List Nat) : Option PrivateKey :=
  if key.length = 32 then some ⟨key⟩ else none

/-- Rust `str::is_ascii`. -/
def isAsciiStr (s : String) : Bool := s.data.all (fun c => c.toNat ≤ 127)

/-- `PrivateKey::from_login`: asserts all inputs ASCII, then hashes the seed
`username ‖ role ‖ password` with SHA-256. -/
def from_login (username password role : String) : Option PrivateKey :=
  if isAsciiStr username ∧ isAsciiStr password ∧ isAsciiStr role then
    new (sha256 (strBytes (username ++ role ++ password)))
  else none

/-- `PrivateKey::from_string` (WIF decode). -/
def from_string (wif : String) : Option PrivateKey :=
  (decode_from_string wif (some EncodeType.Sha256x2)).bind new

/-- `PrivateKey::to_string` (WIF encode; asserts a non-empty buffer). -/
def to_string (k : PrivateKey) : Option String :=
  if k.key.length > 0 then some (encode_to_string k.key (some EncodeType.Sha256x2))
  else none

/-- `SigningKey::from_bytes(..).unwrap()`: requires 32 bytes whose
big-endian value is a scalar in `[1, n − 1]`. -/
def scalarOf (k : PrivateKey) : Option Nat :=
  let d := ofDigitsBE 256 k.key
  if k.key.length = 32 ∧ 0 < d ∧ d < secpN then some d else none

/-- `PrivateKey::to_public`: project to the compressed verifying key. -/
def to_public (k : PrivateKey) : Option PublicKey :=
  match k.scalarOf with
  | none => none
  | some d =>
    (jacToAffine (jacScalarMul d (secpGx, secpGy, 1))).map (fun pt => ⟨compressPoint pt⟩)

/-- `PrivateKey::sign_message_canonical`.

Modelled from the spec where it leans on the absent `src/hash.rs`: the
`Sha256Proxy` digest hands the precomputed `hash_message(message)` (SHA-256
of the message bytes) to the `k256` recoverable signer, so the signed digest
is `SHA256(message)`.  The recovery marker is stored as the recovery parity
plus 31. -/
def sign_message_canonical (k : PrivateKey) (message : String) : Option Signature :=
  k.scalarOf.bind (fun d =>
    (ecdsaSignCanonical d (hash_message (strBytes message))).map
      (fun rsv => { r := rsv.1, s := rsv.2.1, v := rsv.2.2 + 31 }))

end PrivateKey

/-! ### Behaviour of `decode_from_string` on well-shaped base58 input -/

theorem decode_encoded_K1 (P c4 : List Nat) (hP : ∀ x ∈ P, x < 256)
    (hc : ∀ x ∈ c4, x < 256) (hc4 : c4.length = 4) :
    decode_from_string (String.mk (b58Encode (P ++ c4))) (some EncodeType.K1) =
      if P.length = 65 then some P else none := by
  have hall : ∀ x ∈ P ++ c4, x < 256 := by
    intro x hx
    rcases List.mem_append.mp hx with h | h
    · exact hP x h
    · exact hc x h
  have hb : b58Decode (String.mk (b58Encode (P ++ c4))).data = some (P ++ c4) :=
    b58_roundtrip _ hall
  have hlen : (P ++ c4).length = P.length + 4 := by simp [hc4]
  have htake : (P ++ c4).take ((P ++ c4).length - 4) = P := by
    rw [hlen, Nat.add_sub_cancel]
    exact List.take_left' rfl
  have hdrop : (P ++ c4).drop ((P ++ c4).length - 4) = c4 := by
    rw [hlen, Nat.add_sub_cancel]
    exact List.drop_left' rfl
  simp only [decode_from_string, hb, Option.getD_some]
  rw [if_neg (by omega : ¬ (P ++ c4).length < 4), htake, hdrop]
  by_cases h65 : P.length = 65
  · rw [if_pos h65, if_pos ⟨h65, hc4⟩]
  · rw [if_neg h65, if_neg (by intro hand; exact h65 hand.1)]

theorem decode_encoded_PubKey (P c4 : List Nat) (hP : ∀ x ∈ P, x < 256)
    (hc : ∀ x ∈ c4, x < 256) (hc4 : c4.length = 4) :
    decode_from_string (String.mk (b58Encode (P ++ c4))) (some EncodeType.PubKey) =
      if P.length = 32 then some P else none := by
  have hall : ∀ x ∈ P ++ c4, x < 256 := by
    intro x hx
    rcases List.mem_append.mp hx with h | h
    · exact hP x h
    · exact hc x h
  have hb : b58Decode (String.mk (b58Encode (P ++ c4))).data = some (P ++ c4) :=
    b58_roundtrip _ hall
  have hlen : (P ++ c4).length = P.length + 4 := by simp [hc4]
  have htake : (P ++ c4).take ((P ++ c4).length - 4) = P := by
    rw [hlen, Nat.add_sub_cancel]
    exact List.take_left' rfl
  have hdrop : (P ++ c4).drop ((P ++ c4).length - 4) = c4 := by
    rw [hlen, Nat.add_sub_cancel]
    exact List.drop_left' rfl
  simp only [decode_from_string, hb, Option.getD_some]
  rw [if_neg (by omega : ¬ (P ++ c4).length < 4), htake, hdrop]
  by_cases h32 : P.length = 32
  · rw [if_pos h32, if_pos ⟨h32, hc4⟩]
  · rw [if_neg h32, if_neg (by intro hand; exact h32 hand.1)]

theorem decode_encoded_Sha256x2 (key c4 : List Nat) (hkey : ∀ x ∈ key, x < 256)
    (hc : ∀ x ∈ c4, x < 256) (hc4 : c4.length = 4) :
    decode_from_string (String.mk (b58Encode ((0x80 :: key) ++ c4)))
        (some EncodeType.Sha256x2) =
      if key.length = 32 then some key else none := by
  have hall : ∀ x ∈ (0x80 :: key) ++ c4, x < 256 := by
    intro x hx
    rcases List.mem_append.mp hx with h | h
    · rcases List.mem_cons.mp h with h | h
      · omega
      · exact hkey x h
    · exact hc x h
  have hb : b58Decode (String.mk (b58Encode ((0x80 :: key) ++ c4))).data =
      some ((0x80 :: key) ++ c4) := b58_roundtrip _ hall
  have hlen : ((0x80 :: key) ++ c4).length = key.length + 5 := by simp [hc4]
  have hlen' : (0x80 :: key).length = key.length + 1 := by simp
  have htake : ((0x80 :: key) ++ c4).take (((0x80 :: key) ++ c4).length - 4) = 0x80 :: key := by
    rw [hlen]
    have : key.length + 5 - 4 = key.length + 1 := by omega
    rw [this]
    exact List.take_left' hlen'
  have hdrop : ((0x80 :: key) ++ c4).drop (((0x80 :: key) ++ c4).length - 4) = c4 := by
    rw [hlen]
    have : key.length + 5 - 4 = key.length + 1 := by omega
    rw [this]
    exact List.drop_left' hlen'
  simp only [decode_from_string, hb, Option.getD_some]
  rw [if_neg (by omega : ¬ ((0x80 :: key) ++ c4).length < 4), htake, hdrop]
  rw [if_neg (by simp : ¬ (0x80 :: key).length < 1)]
  simp only [List.take_cons, List.take_zero, List.drop_succ_cons, List.drop_zero]
  by_cases h32 : key.length = 32
  · rw [if_pos h32, if_pos ⟨hc4, h32, rfl⟩]
  · rw [if_neg h32, if_neg (by intro hand; exact h32 hand.2.1)]

/-! ### Helper lemmas on rotation and 65-byte serialization -/

theorem rotL1_rotR1 (l : List α) (h : l ≠ []) : rotL1 (rotR1 l) = l := by
  rcases List.eq_nil_or_concat l with rfl | ⟨xs, a, rfl⟩
  · exact absurd rfl h
  · rw [List.concat_eq_append, rotR1]
    have hlen : (xs ++ [a]).length - 1 = xs.length := by simp
    rw [hlen, List.drop_left, List.take_left]
    rfl

theorem rotR1_length (l : List α) : (rotR1 l).length = l.length := by
  rw [rotR1]
  simp only [List.length_append, List.length_drop, List.length_take]
  omega

theorem mem_rotR1 (l : List α) (x : α) (h : x ∈ rotR1 l) : x ∈ l := by
  rw [rotR1] at h
  rcases List.mem_append.mp h with h | h
  · exact List.mem_of_mem_drop h
  · exact List.mem_of_mem_take h

theorem to_vec_length (sig : Signature) : sig.to_vec.length = 65 := by
  rw [Signature.to_vec]
  simp

theorem to_vec_ne_nil (sig : Signature) : sig.to_vec ≠ [] := by
  intro h
  have := to_vec_length sig
  rw [h] at this
  simp at this

theorem to_vec_lt (sig : Signature) : ∀ x ∈ sig.to_vec, x < 256 := by
  intro x hx
  rw [Signature.to_vec] at hx
  rcases List.mem_append.mp hx with h | h
  · rcases List.mem_append.mp h with h | h
    · exact toBytesBE_lt _ _ x h
    · exact toBytesBE_lt _ _ x h
  · rcases List.mem_singleton.mp h with rfl
    exact Nat.mod_lt _ (by omega)

theorem signatureTryFrom_to_vec (sig : Signature) (hr : sig.r < 2 ^ 256)
    (hs : sig.s < 2 ^ 256) :
    signatureTryFrom sig.to_vec =
      Except.ok { r := sig.r, s := sig.s, v := sig.v % 256 } := by
  have hA := toBytesBE_length 32 sig.r
  have hB := toBytesBE_length 32 sig.s
  rw [signatureTryFrom, if_neg (by rw [to_vec_length]; omega)]
  rw [Signature.to_vec, List.append_assoc]
  rw [List.take_left' hA, List.drop_left' hA, List.take_left' hB]
  rw [List.getD_append_right _ _ _ _ (by omega),
    List.getD_append_right _ _ _ _ (by omega),
    ofDigitsBE_toBytesBE 32 sig.r hr, ofDigitsBE_toBytesBE 32 sig.s hs, hA, hB]
  rfl

/-! ### Claim theorems -/

/-- **C2** counterexample.  The claim says `decode` recomputes the variant
checksum and fails with a `ChecksumMismatch` error on any byte difference,
enforcing length checks with typed error returns and never aborting the
process.  In fact `decode_from_string` never recomputes or compares the
checksum: a PubKey-variant buffer whose four trailing bytes `[1,2,3,4]`
differ from the RIPEMD-160 checksum of its payload decodes successfully to
the payload, and malformed input (here the empty string, too short to split
a checksum) aborts the process (`none`) rather than returning a typed
error. -/
theorem c2_counterexample :
    decode_from_string (String.mk (b58Encode (List.replicate 32 7 ++ [1, 2, 3, 4])))
        (some EncodeType.PubKey) = some (List.replicate 32 7) ∧
    (ripemd160 (List.replicate 32 7)).take 4 ≠ [1, 2, 3, 4] ∧
    decode_from_string "" (some EncodeType.PubKey) = none := by
  refine ⟨?_, by decide, by decide⟩
  rw [decode_encoded_PubKey (List.replicate 32 7) [1, 2, 3, 4] (by decide) (by decide) rfl]
  decide

/-- **C2** (amended): `decode_from_string` base58-decodes and splits off the
four trailing bytes, but accepts *any* trailing four bytes — the checksum is
never recomputed or compared; the fixed-length checks (65 for K1, network
byte `0x80` plus 32 payload bytes for Sha256x2, 32 for PubKey) are
process-aborting assertions (`none`), not typed error returns. -/
theorem c2_decode_skips_checksum (P key c4 : List Nat)
    (hP : ∀ x ∈ P, x < 256) (hkey : ∀ x ∈ key, x < 256)
    (hc : ∀ x ∈ c4, x < 256) (hc4 : c4.length = 4) :
    (decode_from_string (String.mk (b58Encode (P ++ c4))) (some EncodeType.K1) =
        if P.length = 65 then some P else none) ∧
    (decode_from_string (String.mk (b58Encode (P ++ c4))) (some EncodeType.PubKey) =
        if P.length = 32 then some P else none) ∧
    (decode_from_string (String.mk (b58Encode ((0x80 :: key) ++ c4)))
        (some EncodeType.Sha256x2) =
        if key.length = 32 then some key else none) :=
  ⟨decode_encoded_K1 P c4 hP hc hc4, decode_encoded_PubKey P c4 hP hc hc4,
    decode_encoded_Sha256x2 key c4 hkey hc hc4⟩

theorem c2_witness :
    decode_from_string (String.mk (b58Encode (List.replicate 65 1 ++ [0, 0, 0, 0])))
        (some EncodeType.K1) = some (List.replicate 65 1) := by
  have h := (c2_decode_skips_checksum (List.replicate 65 1) (List.replicate 32 2)
    [0, 0, 0, 0] (by decide) (by decide) (by decide) rfl).1
  simpa using h

/-- **C3**: for every encoding variant V and every payload P of the valid
length for V (65 bytes for K1, 32 for Sha256x2, 32 for PubKey),
`decode(encode(P, V), V) = P`. -/
theorem c3_encode_decode_roundtrip (P : List Nat) (hP : ∀ x ∈ P, x < 256) :
    (P.length = 65 →
      decode_from_string (encode_to_string P (some EncodeType.K1))
        (some EncodeType.K1) = some P) ∧
    (P.length = 32 →
      decode_from_string (encode_to_string P (some EncodeType.Sha256x2))
        (some EncodeType.Sha256x2) = some P) ∧
    (P.length = 32 →
      decode_from_string (encode_to_string P (some EncodeType.PubKey))
        (some EncodeType.PubKey) = some P) := by
  refine ⟨fun h65 => ?_, fun h32 => ?_, fun h32 => ?_⟩
  · show decode_from_string
      (String.mk (b58Encode (P ++ (ripemd160 (P ++ [0x4b, 0x31])).take 4)))
      (some EncodeType.K1) = some P
    rw [decode_encoded_K1 P _ hP
      (fun x hx => ripemd160_lt _ x (List.mem_of_mem_take hx))
      (by simp [List.length_take, ripemd160_length]), if_pos h65]
  · show decode_from_string
      (String.mk (b58Encode ((0x80 :: P) ++ (sha256 (sha256 (0x80 :: P))).take 4)))
      (some EncodeType.Sha256x2) = some P
    rw [decode_encoded_Sha256x2 P _ hP
      (fun x hx => sha256_lt _ x (List.mem_of_mem_take hx))
      (by simp [List.length_take, sha256_length]), if_pos h32]
  · show decode_from_string
      (String.mk (b58Encode (P ++ (ripemd160 P).take 4)))
      (some EncodeType.PubKey) = some P
    rw [decode_encoded_PubKey P _ hP
      (fun x hx => ripemd160_lt _ x (List.mem_of_mem_take hx))
      (by simp [List.length_take, ripemd160_length]), if_pos h32]

theorem c3_witness :
    decode_from_string (encode_to_string (List.replicate 65 7) (some EncodeType.K1))
        (some EncodeType.K1) = some (List.replicate 65 7) ∧
    decode_from_string (encode_to_string (List.replicate 32 8) (some EncodeType.Sha256x2))
        (some EncodeType.Sha256x2) = some (List.replicate 32 8) ∧
    decode_from_string (encode_to_string (List.replicate 32 9) (some EncodeType.PubKey))
        (some EncodeType.PubKey) = some (List.replicate 32 9) :=
  ⟨(c3_encode_decode_roundtrip _ (by decide)).1 (by decide),
    (c3_encode_decode_roundtrip _ (by decide)).2.1 (by decide),
    (c3_encode_decode_roundtrip _ (by decide)).2.2 (by decide)⟩

/-- **C10**: serializing a signature to its 65-byte form writes the recovery
marker as `v % 256`; parsing the serialization back therefore yields the
signature with `v` truncated to its low 8 bits — exactly the original
signature when `v < 256`, and silently `v % 256` (instead of a failure)
otherwise. -/
theorem c10_serialize_truncates_v (sig : Signature) (hr : sig.r < 2 ^ 256)
    (hs : sig.s < 2 ^ 256) :
    signatureTryFrom sig.to_vec =
      Except.ok { r := sig.r, s := sig.s, v := sig.v % 256 } ∧
    (sig.v < 256 → signatureTryFrom sig.to_vec = Except.ok sig) := by
  refine ⟨signatureTryFrom_to_vec sig hr hs, fun hv => ?_⟩
  rw [signatureTryFrom_to_vec sig hr hs, Nat.mod_eq_of_lt hv]

theorem c10_witness :
    signatureTryFrom (Signature.to_vec ⟨1, 2, 300⟩) = Except.ok ⟨1, 2, 44⟩ ∧
    signatureTryFrom (Signature.to_vec ⟨1, 2, 77⟩) = Except.ok ⟨1, 2, 77⟩ :=
  ⟨(c10_serialize_truncates_v ⟨1, 2, 300⟩ (by decide) (by decide)).1,
    (c10_serialize_truncates_v ⟨1, 2, 77⟩ (by decide) (by decide)).2 (by decide)⟩

/-- **C7**: the legacy wire form is `[recoveryByte] ‖ r (32 BE) ‖ s (32 BE)`
K1-base58-encoded with the optional textual tag prepended outside the
checksum, and for every signature whose `v` fits in one byte,
`from_legacy(to_legacy(sig, p), p) = Ok(sig)`. -/
theorem c7_legacy_roundtrip (sig : Signature) (p : String) (hr : sig.r < 2 ^ 256)
    (hs : sig.s < 2 ^ 256) (hv : sig.v < 256) :
    Signature.to_legacy sig (some p) =
      p ++ encode_to_string (sig.v % 256 :: (toBytesBE 32 sig.r ++ toBytesBE 32 sig.s)) none ∧
    Signature.from_legacy (Signature.to_legacy sig (some p)) (some p) =
      some (Except.ok sig) := by
  obtain ⟨pl⟩ := p
  have hrot : rotR1 sig.to_vec = sig.v % 256 :: (toBytesBE 32 sig.r ++ toBytesBE 32 sig.s) := by
    rw [Signature.to_vec, List.append_assoc, rotR1]
    have hl : (toBytesBE 32 sig.r ++ (toBytesBE 32 sig.s ++ [sig.v % 256])).length - 1 = 64 := by
      simp
    rw [hl]
    have h64 : (64 : Nat) = (toBytesBE 32 sig.r ++ toBytesBE 32 sig.s).length := by simp
    rw [← List.append_assoc, h64, List.drop_left, List.take_left,
      List.singleton_append]
  constructor
  · rw [Signature.to_legacy, hrot]
    rfl
  · rw [Signature.to_legacy, hrot]
    show Signature.from_legacy
      (String.mk pl ++ String.mk (b58Encode (_ ++ (ripemd160 _).take 4))) _ = _
    rw [Signature.from_legacy]
    have happ : String.mk pl ++ String.mk (b58Encode
        ((sig.v % 256 :: (toBytesBE 32 sig.r ++ toBytesBE 32 sig.s)) ++
          (ripemd160 ((sig.v % 256 :: (toBytesBE 32 sig.r ++ toBytesBE 32 sig.s)) ++
            [0x4b, 0x31])).take 4)) =
        String.mk (pl ++ b58Encode
        ((sig.v % 256 :: (toBytesBE 32 sig.r ++ toBytesBE 32 sig.s)) ++
          (ripemd160 ((sig.v % 256 :: (toBytesBE 32 sig.r ++ toBytesBE 32 sig.s)) ++
            [0x4b, 0x31])).take 4)) := rfl
    rw [happ]
    have hstrip : ∀ L : List Char, stripPfx (String.mk (pl ++ L)) ((some (String.mk pl)).getD "SIG_K1_") = String.mk L := by
      intro L
      rw [Option.getD_some, stripPfx]
      rw [if_pos]
      · show String.mk ((pl ++ L).drop pl.length) = String.mk L
        rw [List.drop_left]
      · exact List.isPrefixOf_iff_prefix.mpr (List.prefix_append pl L)
    rw [hstrip]
    have hP : ∀ x ∈ sig.v % 256 :: (toBytesBE 32 sig.r ++ toBytesBE 32 sig.s), x < 256 := by
      intro x hx
      rcases List.mem_cons.mp hx with rfl | hx
      · exact Nat.mod_lt _ (by omega)
      · rcases List.mem_append.mp hx with h | h
        · exact toBytesBE_lt _ _ x h
        · exact toBytesBE_lt _ _ x h
    have hdec := decode_encoded_K1
      (sig.v % 256 :: (toBytesBE 32 sig.r ++ toBytesBE 32 sig.s))
      ((ripemd160 ((sig.v % 256 :: (toBytesBE 32 sig.r ++ toBytesBE 32 sig.s)) ++
        [0x4b, 0x31])).take 4)
      hP (fun x hx => ripemd160_lt _ x (List.mem_of_mem_take hx))
      (by simp [List.length_take, ripemd160_length])
    rw [if_pos (by simp)] at hdec
    have hdec' : decode_from_string (String.mk (b58Encode
        ((sig.v % 256 :: (toBytesBE 32 sig.r ++ toBytesBE 32 sig.s)) ++
          (ripemd160 ((sig.v % 256 :: (toBytesBE 32 sig.r ++ toBytesBE 32 sig.s)) ++
            [0x4b, 0x31])).take 4))) none =
        some (sig.v % 256 :: (toBytesBE 32 sig.r ++ toBytesBE 32 sig.s)) := hdec
    rw [hdec']
    have hback : rotL1 (sig.v % 256 :: (toBytesBE 32 sig.r ++ toBytesBE 32 sig.s)) =
        sig.to_vec := by
      rw [← hrot, rotL1_rotR1 _ (to_vec_ne_nil sig)]
    show some (signatureTryFrom (rotL1
      (sig.v % 256 :: (toBytesBE 32 sig.r ++ toBytesBE 32 sig.s)))) = some (Except.ok sig)
    rw [hback, signatureTryFrom_to_vec sig hr hs, Nat.mod_eq_of_lt hv]

theorem c7_witness :
    Signature.from_legacy (Signature.to_legacy ⟨1, 2, 31⟩ (some "SIG_K1_"))
        (some "SIG_K1_") = some (Except.ok ⟨1, 2, 31⟩) :=
  (c7_legacy_roundtrip ⟨1, 2, 31⟩ "SIG_K1_" (by decide) (by decide) (by decide)).2

/-- **C4**: private-key derivation is SHA-256 of the UTF-8 bytes of
`username ‖ role ‖ password` (role concatenated before password) — a pure
function of its inputs — and the key derived from
`("test", "test", "owner")` WIF-encodes to exactly
`"5K8AruCpTY6gVeQRMd5UpeuoVR2YheRCjUDAVFrfiahZU4bBccj"`. -/
theorem c4_from_login_derivation (u p r : String)
    (hu : PrivateKey.isAsciiStr u) (hp : PrivateKey.isAsciiStr p)
    (hr : PrivateKey.isAsciiStr r) :
    PrivateKey.from_login u p r = some ⟨sha256 (strBytes (u ++ r ++ p))⟩ ∧
    (PrivateKey.from_login "test" "test" "owner").bind PrivateKey.to_string =
      some "5K8AruCpTY6gVeQRMd5UpeuoVR2YheRCjUDAVFrfiahZU4bBccj" := by
  constructor
  · rw [PrivateKey.from_login, if_pos ⟨hu, hp, hr⟩, PrivateKey.new,
      if_pos (sha256_length _)]
  · decide

theorem c4_witness :
    PrivateKey.from_login "alice" "hunter2" "posting" =
      some ⟨sha256 (strBytes ("alice" ++ "posting" ++ "hunter2"))⟩ :=
  (c4_from_login_derivation "alice" "hunter2" "posting"
    (by decide) (by decide) (by decide)).1

/-- **C5**: the claim says `normalize_recovery_id` maps 27/28 to `v − 27`
and fails explicitly on any undocumented value.  In the code the arms for
27/28 are missing — they fall through to the sentinel `4` — and an
undocumented value such as `v = 4` also yields the sentinel `4` instead of
an error; the sentinel is only rejected later, when
`Signature::recovery_id` feeds it to `RecoveryId::new` (shown here for
`v = 27`, which the `recover` doc comment declares a supported Electrum
marker yet which always errors).  The documented arms 0/1, 31/32 and ≥ 35
behave as claimed. -/
theorem c5_normalize_recovery_marker :
    normalize_recovery_id 0 = 0 ∧ normalize_recovery_id 1 = 1 ∧
    normalize_recovery_id 31 = 0 ∧ normalize_recovery_id 32 = 1 ∧
    normalize_recovery_id 35 = 0 ∧ normalize_recovery_id 36 = 1 ∧
    normalize_recovery_id 27 = 4 ∧ normalize_recovery_id 28 = 4 ∧
    normalize_recovery_id 4 = 4 ∧
    Signature.recovery_id ⟨1, 1, 27⟩ = Except.error SignatureError.K256Error ∧
    Signature.recovery_id ⟨1, 1, 4⟩ = Except.error SignatureError.K256Error := by
  decide

/-- **C8** counterexample: the claim says `verify` converts any internal
recovery failure into a verification-shaped (`VerificationMismatch`-class)
failure instead of propagating the lower-level error.  In fact `verify`
propagates the recovery error unchanged: for a signature with the invalid
recovery marker `v = 4`, the `K256Error` raised inside `recover` surfaces
verbatim from `verify`. -/
theorem c8_counterexample :
    Signature.verify ⟨1, 1, 4⟩ (RecoveryMessage.Data [1]) ⟨[1, 2, 3]⟩ =
      Except.error SignatureError.K256Error := by
  decide

/-- **C8** (amended): `verify` recovers the signer and returns `Ok(())` when
the recovered key equals the expected one and
`VerificationError(expected, actual)` on inequality, but any internal
recovery failure is propagated unchanged to the caller rather than being
converted into a verification-shaped failure. -/
theorem c8_verify_shape (sig : Signature) (m : RecoveryMessage) (pk : PublicAddress) :
    Signature.verify sig m pk =
      match Signature.recover sig m with
      | Except.error e => Except.error e
      | Except.ok rec =>
        if rec = pk then Except.ok ()
        else Except.error (SignatureError.VerificationError pk rec) := by
  rw [Signature.verify]
  cases hrec : Signature.recover sig m with
  | error e => rfl
  | ok rec =>
    show (if rec ≠ pk then Except.error (SignatureError.VerificationError pk rec)
      else Except.ok ()) = _
    by_cases h : rec = pk
    · simp [h]
    · simp [h]

/-- **C9**: the formatted address is the chain prefix (closed table
Hive → "STM", Steem → "STM", Eos → "EOS", default Hive) concatenated with
the PubKey-variant base58check encoding of the public-key bytes, and the
public key derived from `("test", "test", "owner")` formats to exactly
`"STM5jixkNBqJXNtX9vy2GjaqpX2d5jXrcjRXgh1WU5fXZhnDJrLM8"`. -/
theorem c9_address_format (k : PublicKey) (h : k.key ≠ []) :
    (k.to_string (some Chain.Hive) =
        some ("STM" ++ encode_to_string k.key (some EncodeType.PubKey)) ∧
      k.to_string (some Chain.Steem) =
        some ("STM" ++ encode_to_string k.key (some EncodeType.PubKey)) ∧
      k.to_string (some Chain.Eos) =
        some ("EOS" ++ encode_to_string k.key (some EncodeType.PubKey)) ∧
      k.to_string none = k.to_string (some Chain.Hive)) ∧
    ((PrivateKey.from_login "test" "test" "owner").bind PrivateKey.to_public).bind
      (fun pk => pk.to_string none) =
      some "STM5jixkNBqJXNtX9vy2GjaqpX2d5jXrcjRXgh1WU5fXZhnDJrLM8" := by
  have hpos : k.key.length > 0 := List.length_pos.mpr h
  refine ⟨⟨?_, ?_, ?_, rfl⟩, by decide⟩
  · show (if k.key.length > 0
      then some ("STM" ++ encode_to_string k.key (some EncodeType.PubKey))
      else none) = _
    rw [if_pos hpos]
  · show (if k.key.length > 0
      then some ("STM" ++ encode_to_string k.key (some EncodeType.PubKey))
      else none) = _
    rw [if_pos hpos]
  · show (if k.key.length > 0
      then some ("EOS" ++ encode_to_string k.key (some EncodeType.PubKey))
      else none) = _
    rw [if_pos hpos]

theorem c9_witness :
    PublicKey.to_string ⟨[1]⟩ (some Chain.Eos) =
      some ("EOS" ++ encode_to_string [1] (some EncodeType.PubKey)) :=
  ((c9_address_format ⟨[1]⟩ (by decide)).1).2.2.1

theorem lowSFinish_recid_le_one (r s ry r' s' recid : Nat)
    (h : lowSFinish r s ry = some (r', s', recid)) : recid ≤ 1 := by
  rw [lowSFinish] at h
  split at h
  · cases h
  · split at h
    · simp only [Option.some_inj, Prod.mk.injEq] at h
      obtain ⟨-, -, h3⟩ := h
      rw [← h3]
      split
      · omega
      · omega
    · simp only [Option.some_inj, Prod.mk.injEq] at h
      obtain ⟨-, -, h3⟩ := h
      rw [← h3]
      split
      · omega
      · omega

theorem ecdsaSignWithNonce_recid_le_one (d z k r s recid : Nat)
    (h : ecdsaSignWithNonce d z k = some (r, s, recid)) : recid ≤ 1 := by
  rw [ecdsaSignWithNonce] at h
  rcases Option.bind_eq_some.mp h with ⟨pt, -, hpt⟩
  split at hpt
  · cases hpt
  · exact lowSFinish_recid_le_one _ _ _ _ _ _ hpt

theorem ecdsaSignCanonical_recid_le_one (d : Nat) (h1 : List Nat) (r s recid : Nat)
    (h : ecdsaSignCanonical d h1 = some (r, s, recid)) : recid ≤ 1 := by
  rw [ecdsaSignCanonical] at h
  rcases Option.bind_eq_some.mp h with ⟨k, -, hk⟩
  exact ecdsaSignWithNonce_recid_le_one _ _ _ _ _ _ hk

/-- **C6** (amended): the canonical signature stores its recovery marker as
the curve recovery parity plus 31 (this ecosystem's 31/32 offset, not the
Electrum 27/28 one the claim states): whenever signing succeeds,
`v = recoveryParity + 31 ∈ {31, 32}`. -/
theorem c6_v_is_parity_plus_31 (k : PrivateKey) (m : String) (sig : Signature)
    (h : k.sign_message_canonical m = some sig) :
    (∃ d r s recid, k.scalarOf = some d ∧
      ecdsaSignCanonical d (hash_message (strBytes m)) = some (r, s, recid) ∧
      recid ≤ 1 ∧ sig = ⟨r, s, recid + 31⟩) ∧
    (sig.v = 31 ∨ sig.v = 32) := by
  rw [PrivateKey.sign_message_canonical] at h
  rcases Option.bind_eq_some.mp h with ⟨d, hd, hmap⟩
  rcases Option.map_eq_some'.mp hmap with ⟨⟨r', s', recid'⟩, htrip, heq⟩
  subst heq
  have hle := ecdsaSignCanonical_recid_le_one _ _ _ _ _ htrip
  refine ⟨⟨d, r', s', recid', hd, htrip, hle, rfl⟩, ?_⟩
  show recid' + 31 = 31 ∨ recid' + 31 = 32
  omega

set_option maxHeartbeats 16000000 in
/-- **C6** counterexample: the claim says the canonical signature stores
`v = recoveryParity + 27 ∈ {27, 28}`; signing `"helloworld"` with the key
derived from `("test", "test", "owner")` stores `v = 31`. -/
theorem c6_counterexample :
    ((PrivateKey.from_login "test" "test" "owner").bind
      (fun k => k.sign_message_canonical "helloworld")).map Signature.v = some 31 := by
  decide

set_option maxHeartbeats 16000000 in
theorem c6_witness :
    (∃ d r s recid,
      (⟨[172, 77, 224, 92, 161, 163, 181, 53, 80, 219, 255, 168, 223, 31, 231, 32,
        238, 108, 150, 219, 77, 153, 8, 68, 240, 148, 105, 203, 131, 235, 219, 82]⟩ :
        PrivateKey).scalarOf = some d ∧
      ecdsaSignCanonical d (hash_message (strBytes "helloworld")) = some (r, s, recid) ∧
      recid ≤ 1 ∧
      (⟨4444751270695410760354273786548251919337442822158056826654450437627770433944,
        45718376648125766811302284727582158648001555302138352251901454362293617819093,
        31⟩ : Signature) = ⟨r, s, recid + 31⟩) ∧
    ((⟨4444751270695410760354273786548251919337442822158056826654450437627770433944,
      45718376648125766811302284727582158648001555302138352251901454362293617819093,
      31⟩ : Signature).v = 31 ∨
     (⟨4444751270695410760354273786548251919337442822158056826654450437627770433944,
      45718376648125766811302284727582158648001555302138352251901454362293617819093,
      31⟩ : Signature).v = 32) :=
  c6_v_is_parity_plus_31
    ⟨[172, 77, 224, 92, 161, 163, 181, 53, 80, 219, 255, 168, 223, 31, 231, 32,
      238, 108, 150, 219, 77, 153, 8, 68, 240, 148, 105, 203, 131, 235, 219, 82]⟩
    "helloworld"
    ⟨4444751270695410760354273786548251919337442822158056826654450437627770433944,
      45718376648125766811302284727582158648001555302138352251901454362293617819093,
      31⟩
    (by decide)

end Tetanus
